import Mathlib

/-!
Verification of the pipe stock search tool (`app.py`, `weight.py`).

The Python sources are shallowly embedded: Python `str` values become
`List Char`, Python floats become exact rationals (`ℚ`), Python `math.floor`
becomes `Int.floor`, and the pandas data frame of the merged stock/weight
table becomes a `List Row` kept in table order.  `pandas.sort_values`
(numpy's sort, which is an insertion sort and hence stable on the small
frames this tool handles) is modelled by a stable insertion sort, and
`groupby(...).first()` (which sorts the group keys) is modelled by taking
per-category first rows along the lexicographically sorted category list.
-/

namespace PipeStock

/-- ASCII whitespace recognised by Python's `str.strip` and the regex class
`\s`. -/
def pyIsSpace (c : Char) : Bool :=
  c = ' ' || c = '\t' || c = '\n' || c = '\r' || c = '\x0b' || c = '\x0c'

/-- Characters of the regex class `\w` (ASCII range, as used in the app). -/
def isWordChar (c : Char) : Bool :=
  c.isAlphanum || c = '_'

/-- Python `str.lower` on the ASCII letters appearing in this data. -/
def pyLower (s : List Char) : List Char :=
  s.map Char.toLower

/-- Python `str.strip`: drop whitespace from both ends. -/
def pyStrip (s : List Char) : List Char :=
  ((s.dropWhile pyIsSpace).reverse.dropWhile pyIsSpace).reverse

/-- `hay` starts with `needle` (both as raw character lists). -/
def startsWithL : List Char → List Char → Bool
  | _, [] => true
  | [], _ :: _ => false
  | h :: hs, n :: ns => h = n && startsWithL hs ns

/-- Case-insensitive version of `startsWithL`. -/
def startsWithCI (hay needle : List Char) : Bool :=
  startsWithL (pyLower hay) (pyLower needle)

/-- Python's substring containment `needle in hay` (contiguous occurrence;
the empty needle is contained in everything). -/
def isSubstr (needle : List Char) : List Char → Bool
  | [] => needle.isEmpty
  | c :: rest => startsWithL (c :: rest) needle || isSubstr needle rest

/-- Numeric value of a run of decimal digit characters. -/
def digitsToNat (ds : List Char) : ℕ :=
  ds.foldl (fun a c => 10 * a + (c.toNat - 48)) 0

/-- Value of the decimal literal `intds [. fracds]`, as an exact rational.
Python parses such literals with `float(...)`; the embedding uses the exact
value. -/
def decValue (intds fracds : List Char) : ℚ :=
  (digitsToNat intds : ℚ) + (digitsToNat fracds : ℚ) / (10 : ℚ) ^ fracds.length

/-! ## `weight.py` -/

/-- `weight.py`: density of mild steel, kg/m³. -/
def DENSITY : ℚ := 7850

/-- Shallow embedding of `weight.py`'s `calculate_pipe_weight`: volume of the
strip (width × thickness × length, converted from mm to m) times density.
Python float arithmetic is modelled by exact rational arithmetic. -/
def calculate_pipe_weight (strip_width_mm thickness_mm length_m : ℚ) : ℚ :=
  let strip_width_m := strip_width_mm / 1000
  let thickness_m := thickness_mm / 1000
  let volume_m3 := strip_width_m * thickness_m * length_m
  DENSITY * volume_m3

/-! ## `app.py`: constants and the merge step -/

/-- `app.py`: `MASS_FACTOR = 0.0471`, i.e. mass(kg) = 0.0471 · W(mm) · t(mm). -/
def MASS_FACTOR : ℚ := 0.0471

/-- `app.py`: `LENGTH_M = 6.0`. -/
def LENGTH_M : ℚ := 6

/-- Round to the nearest integer, ties to even — the rounding used by
`numpy.round`, which backs the pandas `.round(6)` call in
`build_weight_sheet`. -/
def roundHalfEven (q : ℚ) : ℤ :=
  if q - ⌊q⌋ < 1 / 2 then ⌊q⌋
  else if (1 : ℚ) / 2 < q - ⌊q⌋ then ⌊q⌋ + 1
  else if ⌊q⌋ % 2 = 0 then ⌊q⌋ else ⌊q⌋ + 1

/-- pandas `.round(6)` on an exact rational value. -/
def round6 (q : ℚ) : ℚ :=
  (roundHalfEven (q * 1000000) : ℚ) / 1000000

/-- One row of the merged stock + weight table produced by
`load_and_merge_stock_with_weight` (columns kept by the final `out`
projection). -/
structure Row where
  pipe_category : List Char
  thickness_mm : ℚ
  strip_width_mm : ℚ
  mass_kg : ℚ
  stock_mt : ℚ
  stock_kg : ℚ
  num_pieces_available : ℤ
deriving DecidableEq

/-- `app.py` lines 204–207: `math.floor(stock_kg / mass_kg) if mass_kg > 0
else 0`. -/
def num_pieces_of (stock_kg mass_kg : ℚ) : ℤ :=
  if mass_kg > 0 then ⌊stock_kg / mass_kg⌋ else 0

/-- `build_weight_sheet` line 105: `mass_kg = (MASS_FACTOR * strip_width_mm *
thickness_mm).round(6)`. -/
def weight_sheet_mass (strip_width_mm thickness_mm : ℚ) : ℚ :=
  round6 (MASS_FACTOR * strip_width_mm * thickness_mm)

/-- A merged row whose mass comes from the generated weight sheet, with
`stock_kg = stock_mt * 1000.0` (line 202) and the guarded floor piece count
(lines 204–207). -/
def mergeRow (cat : List Char) (thickness strip_width stock_mt : ℚ) : Row :=
  let mass := weight_sheet_mass strip_width thickness
  { pipe_category := cat
    thickness_mm := thickness
    strip_width_mm := strip_width
    mass_kg := mass
    stock_mt := stock_mt
    stock_kg := stock_mt * 1000
    num_pieces_available := num_pieces_of (stock_mt * 1000) mass }

/-- A merged row for which no weight-sheet entry matched: lines 197–199 fill
`mass_kg` and `strip_width_mm` with `0` (`fillna(0)`), and the piece count
falls into the `else 0` guard of lines 204–207. -/
def mergeRowUnknownMass (cat : List Char) (thickness stock_mt : ℚ) : Row :=
  { pipe_category := cat
    thickness_mm := thickness
    strip_width_mm := 0
    mass_kg := 0
    stock_mt := stock_mt
    stock_kg := stock_mt * 1000
    num_pieces_available := num_pieces_of (stock_mt * 1000) 0 }

/-! ## Sorting machinery

`sort_values("thick_diff")` sorts the frame by the absolute thickness
difference.  numpy sorts frames of this size with an insertion sort, which is
stable, so the embedding uses a stable insertion sort.  `groupby` sorts its
keys, hence the lexicographic sort of category labels below. -/

/-- Insert `x` into `l`, before the first element `y` with `le x y`. -/
def insertBy (le : α → α → Bool) (x : α) : List α → List α
  | [] => [x]
  | y :: ys => if le x y then x :: y :: ys else y :: insertBy le x ys

/-- Stable insertion sort by `le`. -/
def isortBy (le : α → α → Bool) : List α → List α
  | [] => []
  | x :: xs => insertBy le x (isortBy le xs)

/-- The first element of `l` minimising `le` (the earliest element that is
`le` every later candidate). -/
def firstMinBy (le : α → α → Bool) : List α → Option α
  | [] => none
  | x :: xs =>
    match firstMinBy le xs with
    | none => some x
    | some m => if le x m then some x else some m

/-- `pandas.Series.abs` on an exact rational. -/
def qabs (q : ℚ) : ℚ := if q < 0 then -q else q

/-- Comparison of rows by `thick_diff = (thickness_mm - t).abs()` (line 343). -/
def diffLe (t : ℚ) (a b : Row) : Bool :=
  decide (qabs (a.thickness_mm - t) ≤ qabs (b.thickness_mm - t))

/-- Lexicographic order on category labels by code point — the order in which
`groupby` sorts its (string) keys. -/
def catLe : List Char → List Char → Bool
  | [], _ => true
  | _ :: _, [] => false
  | a :: as, b :: bs =>
    if a.toNat < b.toNat then true
    else if b.toNat < a.toNat then false
    else catLe as bs

/-- The distinct category labels of `ms`, sorted lexicographically —
the group keys of `groupby("pipe_category")`. -/
def sortedCats (ms : List Row) : List (List Char) :=
  isortBy catLe (ms.map Row.pipe_category).dedup

/-- The row `groupby(...).first()` keeps for category `c`: the first row of
the diff-sorted frame lying in that group. -/
def chosenFor (ms : List Row) (t : ℚ) (c : List Char) : Option Row :=
  (isortBy (diffLe t) ms).find? (fun r => decide (r.pipe_category = c))

/-- Lines 343–344: sort by `thick_diff`, group by category, take the first
row of each group (the groupby result is ordered by its sorted keys). -/
def nearestPerCategory (ms : List Row) (t : ℚ) : List Row :=
  (sortedCats ms).filterMap (chosenFor ms t)

/-- Lines 334–345: exact thickness filter, else nearest thickness per
category. -/
def thicknessFilter (ms : List Row) : Option ℚ → List Row
  | none => ms
  | some t =>
    let exact := ms.filter (fun r => decide (r.thickness_mm = t))
    if exact.isEmpty then nearestPerCategory ms t else exact

/-- Line 350: `mass_kg` within 1% or within 0.5 kg of the user weight
(`Series.between` is inclusive on both ends). -/
def weightWindow (w : ℚ) (r : Row) : Bool :=
  decide ((w * 0.99 ≤ r.mass_kg ∧ r.mass_kg ≤ w * 1.01) ∨
          (w - 0.5 ≤ r.mass_kg ∧ r.mass_kg ≤ w + 0.5))

/-- Lines 347–353: keep rows matching the declared weight when any do,
otherwise keep `ms` unchanged. -/
def weightFilter (ms : List Row) : Option ℚ → List Row
  | none => ms
  | some w =>
    let cand := ms.filter (weightWindow w)
    if cand.isEmpty then ms else cand

/-- The two outcomes the search handler can render (lines 369–377):
`st.success("Available — ...")` or `st.error("NOT available — ...")`. -/
inductive Verdict where
  | available
  | notAvailable
deriving DecidableEq

/-- Line 369: `stock_kg >= total_weight` where
`total_weight = mass_per_item * qty`. -/
def verdictOf (r : Row) (qty : ℕ) : Verdict :=
  if r.mass_kg * qty ≤ r.stock_kg then .available else .notAvailable

/-- Lines 371–373: remaining pieces after the order, computed only on the
available branch, with the `mass_per_item > 0` guard on the division. -/
def remainingPieces (r : Row) (qty : ℕ) : ℤ :=
  if r.mass_kg * qty ≤ r.stock_kg then
    if r.mass_kg > 0 then ⌊(r.stock_kg - r.mass_kg * qty) / r.mass_kg⌋ else 0
  else 0

/-- What the availability block of the handler derives from the first row of
the filtered match set. -/
structure SearchResult where
  row : Row
  verdict : Verdict
  remaining_pieces : ℤ
deriving DecidableEq

/-- Lines 333–377 of the search handler: thickness filter, weight filter,
then the availability computation on `iloc[0]`.  Returns `none` when
there is no row (the handler only reaches this code with a non-empty match
set). -/
def searchCore (ms : List Row) (t? w? : Option ℚ) (qty : ℕ) : Option SearchResult :=
  match (weightFilter (thicknessFilter ms t?) w?).head? with
  | none => none
  | some first => some ⟨first, verdictOf first qty, remainingPieces first qty⟩

/-! ## `find_best_matches` -/

/-- The separator class `[\s,\/xX\"']+` of the token-split fallback. -/
def isSepChar (c : Char) : Bool :=
  pyIsSpace c || c = ',' || c = '/' || c = 'x' || c = 'X' || c = '"' || c = '\''

/-- Split on runs of separator characters, keeping non-empty pieces only
(the loop skips empty tokens).  The accumulator holds the current piece
reversed. -/
def splitSepsAux : List Char → List Char → List (List Char)
  | acc, [] => if acc.isEmpty then [] else [acc.reverse]
  | acc, c :: rest =>
    if isSepChar c then
      if acc.isEmpty then splitSepsAux [] rest else acc.reverse :: splitSepsAux [] rest
    else splitSepsAux (c :: acc) rest

def splitSeps (s : List Char) : List (List Char) := splitSepsAux [] s

/-- Line 253: `pipe_category.str.lower().str.contains(t)`.  pandas
`str.contains` treats its pattern as a regex; for the metacharacter-free
tokens exercised here that is literal substring containment, which is what
the embedding uses. -/
def catContains (tok : List Char) (r : Row) : Bool :=
  isSubstr tok (pyLower r.pipe_category)

/-- Lines 256–263: first sub-token whose containment filter is non-empty. -/
def firstTokMatch (df : List Row) : List (List Char) → List Row
  | [] => []
  | tok :: toks =>
    let res := df.filter (catContains tok)
    if res.isEmpty then firstTokMatch df toks else res

/-- Shallow embedding of `find_best_matches` (lines 248–267). -/
def find_best_matches (token : List Char) (df : List Row) : List Row :=
  let t := pyLower (pyStrip token)
  if t.isEmpty then df
  else
    let res := df.filter (catContains t)
    if !res.isEmpty then res
    else
      let res2 := firstTokMatch df (splitSeps t)
      if !res2.isEmpty then res2
      else df.filter (fun r => isSubstr (pyLower r.pipe_category) t)

/-- The whole search action: category matching, then the handler core.
`none` corresponds to the "No matches found" warning path. -/
def runSearch (df : List Row) (token : List Char) (t? w? : Option ℚ)
    (qty : ℕ) : Option SearchResult :=
  searchCore (find_best_matches token df) t? w? qty

/-! ## `parse_search_text` -/

structure ParsedQuery where
  raw : List Char
  category : Option (List Char)
  thickness_mm : Option ℚ
  weight_kg : Option ℚ
  qty : Option ℕ
deriving DecidableEq

/-- Match `(\d+(?:\.\d+)?)\s*U\b` (`U` a unit word such as `kg` or `mm`,
case-insensitive) at the start of `s`.  Returns `group(0)` (original casing)
and the numeric value of `group(1)`.  The greedy engine never backtracks out
of a successful fractional part here, because the character following the
digits it would give back can start neither `\s*U` nor more of the number. -/
def matchNumUnitAt (unit s : List Char) : Option (List Char × ℚ) :=
  let ds := s.takeWhile Char.isDigit
  if ds.isEmpty then none
  else
    let s1 := s.drop ds.length
    let fds :=
      match s1 with
      | '.' :: rest => rest.takeWhile Char.isDigit
      | _ => []
    let fracLen := if fds.isEmpty then 0 else fds.length + 1
    let s2 := s1.drop fracLen
    let sp := s2.takeWhile pyIsSpace
    let s3 := s2.drop sp.length
    let u := s3.take unit.length
    if u.length = unit.length && pyLower u = pyLower unit then
      match (s3.drop unit.length).head? with
      | some c =>
        if isWordChar c then none
        else some (ds ++ s1.take fracLen ++ sp ++ u, decValue ds fds)
      | none => some (ds ++ s1.take fracLen ++ sp ++ u, decValue ds fds)
    else none

/-- `re.search` for the number + unit pattern: leftmost match wins. -/
def searchNumUnit (unit : List Char) : List Char → Option (List Char × ℚ)
  | [] => none
  | c :: rest =>
    match matchNumUnitAt unit (c :: rest) with
    | some r => some r
    | none => searchNumUnit unit rest

/-- Python `str.replace pat rep`: replace every (left-to-right,
non-overlapping, case-sensitive) occurrence.  The fuel starts at the string
length; every step consumes at least one character, so it never runs out. -/
def replaceAllAux (pat rep : List Char) : ℕ → List Char → List Char
  | 0, s => s
  | _ + 1, [] => []
  | n + 1, c :: rest =>
    if !pat.isEmpty && startsWithL (c :: rest) pat then
      rep ++ replaceAllAux pat rep n ((c :: rest).drop pat.length)
    else c :: replaceAllAux pat rep n rest

def replaceAll (pat rep s : List Char) : List Char :=
  replaceAllAux pat rep s.length s

/-- `re.sub(group0, " ", s, count=1, flags=IGNORECASE)` where `group0` is
metacharacter-free literal text: replace its first case-insensitive
occurrence. -/
def replaceFirstCI (pat rep : List Char) : List Char → List Char
  | [] => []
  | c :: rest =>
    if !pat.isEmpty && startsWithCI (c :: rest) pat then
      rep ++ (c :: rest).drop pat.length
    else c :: replaceFirstCI pat rep rest

/-- `\b` between the previous character and the start of a word-character
token. -/
def wordBoundaryBefore : Option Char → Bool
  | none => true
  | some c => !isWordChar c

/-- `(\d+)\b` at the start of `s`: the greedy digit run succeeds iff it is
non-empty and followed by a non-word character or the end (backtracking a
shorter run always leaves a digit — a word character — after it). -/
def digitsThenBoundary (s : List Char) : Option (List Char) :=
  let ds := s.takeWhile Char.isDigit
  if ds.isEmpty then none
  else
    match (s.drop ds.length).head? with
    | some c => if isWordChar c then none else some ds
    | none => some ds

/-- One alternative `\bW\b` (`W` = `qty` or `x`, case-insensitive) of the
optional quantity marker, followed by `\s*(\d+)\b`, at the start of `s`;
`prev` is the character before `s`. -/
def tryQtyWord (word : List Char) (prev : Option Char) (s : List Char) :
    Option (List Char × ℕ) :=
  if wordBoundaryBefore prev && startsWithCI s word then
    let s1 := s.drop word.length
    match s1.head? with
    | some c =>
      if isWordChar c then none
      else
        let sp := s1.takeWhile pyIsSpace
        match digitsThenBoundary (s1.drop sp.length) with
        | some ds => some (s.take word.length ++ sp ++ ds, digitsToNat ds)
        | none => none
    | none => none
  else none

/-- The empty alternative of the optional marker: `\s*(\d+)\b`. -/
def tryQtyBare (s : List Char) : Option (List Char × ℕ) :=
  let sp := s.takeWhile pyIsSpace
  match digitsThenBoundary (s.drop sp.length) with
  | some ds => some (sp ++ ds, digitsToNat ds)
  | none => none

/-- `(?:\bqty\b|\bx\b)?\s*(\d+)\b` at one position: Python tries the
alternatives of the optional group in order, then the empty alternative. -/
def matchQtyAt (prev : Option Char) (s : List Char) : Option (List Char × ℕ) :=
  match tryQtyWord ['q', 't', 'y'] prev s with
  | some r => some r
  | none =>
    match tryQtyWord ['x'] prev s with
    | some r => some r
    | none => tryQtyBare s

/-- `re.search` of the quantity pattern: scan positions left to right,
tracking the previous character for `\b`. -/
def searchQty : Option Char → List Char → Option (List Char × ℕ)
  | _, [] => none
  | prev, c :: rest =>
    match matchQtyAt prev (c :: rest) with
    | some r => some r
    | none => searchQty (some c) rest

/-- Characters kept by the category cleanup regex `[^\w\.\-xX\" ]+`. -/
def keepCatChar (c : Char) : Bool :=
  isWordChar c || c = '.' || c = '-' || c = '"' || c = 'x' || c = 'X' || c = ' '

/-- The cleanup substitution: every maximal run of excluded characters
becomes a single space.  The flag records whether the previous character was
part of such a run. -/
def cleanCatAux : Bool → List Char → List Char
  | _, [] => []
  | inRun, c :: rest =>
    if keepCatChar c then c :: cleanCatAux false rest
    else if inRun then cleanCatAux true rest
    else ' ' :: cleanCatAux true rest

def cleanCat (s : List Char) : List Char := cleanCatAux false s

/-- Shallow embedding of `parse_search_text` (lines 220–246): strip, extract
weight (`NNkg`), extract thickness (`NNmm`), extract a quantity, then clean
the remainder into the category token (falling back to the raw text when
nothing remains). -/
def parse_search_text (text : List Char) : ParsedQuery :=
  let s0 := pyStrip text
  if s0.isEmpty then
    { raw := s0, category := none, thickness_mm := none, weight_kg := none, qty := none }
  else
    let kgRes := searchNumUnit ['k', 'g'] s0
    let s1 :=
      match kgRes with
      | some (g0, _) => replaceAll g0 [' '] s0
      | none => s0
    let mmRes := searchNumUnit ['m', 'm'] s1
    let s2 :=
      match mmRes with
      | some (g0, _) => replaceAll g0 [' '] s1
      | none => s1
    let qtyRes := searchQty none s2
    let s3 :=
      match qtyRes with
      | some (g0, _) => replaceFirstCI g0 [' '] s2
      | none => s2
    let token := pyStrip (cleanCat s3)
    { raw := s0
      category := some (if token.isEmpty then s0 else token)
      thickness_mm := mmRes.map Prod.snd
      weight_kg := kgRes.map Prod.snd
      qty := qtyRes.map Prod.snd }

/-! ## General lemmas about the stable insertion sort -/

section SortLemmas

variable {α : Type*} (le : α → α → Bool)

theorem head?_eq_some_mem {l : List α} {a : α} (h : l.head? = some a) : a ∈ l := by
  cases l with
  | nil => simp at h
  | cons x xs => simp at h; simp [h]

theorem head?_filter' (p : α → Bool) (l : List α) : (l.filter p).head? = l.find? p := by
  induction l with
  | nil => rfl
  | cons x xs ih =>
    by_cases h : p x <;> simp [List.filter_cons, List.find?, h, ih]

theorem firstMinBy_none_iff {l : List α} : firstMinBy le l = none ↔ l = [] := by
  cases l with
  | nil => simp [firstMinBy]
  | cons x xs =>
    simp only [firstMinBy]
    cases firstMinBy le xs <;> simp <;> split <;> simp

theorem head?_isortBy (l : List α) : (isortBy le l).head? = firstMinBy le l := by
  induction l with
  | nil => rfl
  | cons x xs ih =>
    simp only [isortBy, firstMinBy]
    cases h : isortBy le xs with
    | nil =>
      have h0 : firstMinBy le xs = none := by rw [← ih, h]; rfl
      rw [h0]
      simp [insertBy]
    | cons y ys =>
      have h0 : firstMinBy le xs = some y := by rw [← ih, h]; rfl
      rw [h0]
      simp only [insertBy]
      split <;> simp

theorem mem_insertBy {x a : α} {l : List α} :
    a ∈ insertBy le x l ↔ a = x ∨ a ∈ l := by
  induction l with
  | nil => simp [insertBy]
  | cons y ys ih =>
    simp only [insertBy]
    split <;> simp [ih] <;> tauto

theorem mem_isortBy {a : α} {l : List α} : a ∈ isortBy le l ↔ a ∈ l := by
  induction l with
  | nil => simp [isortBy]
  | cons x xs ih => simp [isortBy, mem_insertBy, ih]

end SortLemmas



section SortLemmas2

variable {α : Type*} {le : α → α → Bool}

theorem pairwise_insertBy
    (htot : ∀ a b, le a b = true ∨ le b a = true)
    (htrans : ∀ a b c, le a b = true → le b c = true → le a c = true)
    {x : α} {l : List α} (hl : l.Pairwise (fun a b => le a b = true)) :
    (insertBy le x l).Pairwise (fun a b => le a b = true) := by
  induction l with
  | nil => simp [insertBy]
  | cons y ys ih =>
    rcases List.pairwise_cons.mp hl with ⟨hy, hys⟩
    simp only [insertBy]
    split
    · refine List.pairwise_cons.mpr ⟨?_, hl⟩
      intro z hz
      rcases hz with _ | hz
      · assumption
      · exact htrans x y z (by assumption) (hy z (by assumption))
    · refine List.pairwise_cons.mpr ⟨?_, ih hys⟩
      intro z hz
      rcases (mem_insertBy le).mp hz with rfl | hz
      · rcases htot z y with h | h
        · exact absurd h (by assumption)
        · exact h
      · exact hy z hz

theorem pairwise_isortBy
    (htot : ∀ a b, le a b = true ∨ le b a = true)
    (htrans : ∀ a b c, le a b = true → le b c = true → le a c = true)
    (l : List α) :
    (isortBy le l).Pairwise (fun a b => le a b = true) := by
  induction l with
  | nil => simp [isortBy]
  | cons x xs ih => exact pairwise_insertBy htot htrans ih

theorem head?_filter_insertBy
    (htrans : ∀ a b c, le a b = true → le b c = true → le a c = true)
    (p : α → Bool) {x : α} {l : List α}
    (hl : l.Pairwise (fun a b => le a b = true)) :
    ((insertBy le x l).filter p).head? =
      if p x then
        (match (l.filter p).head? with
         | none => some x
         | some m => if le x m then some x else some m)
      else (l.filter p).head? := by
  induction l with
  | nil =>
    by_cases hpx : p x <;> simp [insertBy, List.filter_cons, hpx]
  | cons y ys ih =>
    rcases List.pairwise_cons.mp hl with ⟨hy, hys⟩
    simp only [insertBy]
    split
    · -- le x y : insert gives x :: y :: ys
      rename_i hxy
      by_cases hpx : p x
      · rw [List.filter_cons_of_pos (by simpa using hpx)]
        simp only [List.head?_cons, hpx, if_true]
        cases hm : (List.filter p (y :: ys)).head? with
        | none => rfl
        | some m =>
          have hmem : m ∈ List.filter p (y :: ys) := head?_eq_some_mem hm
          have hmem' : m ∈ y :: ys := List.mem_of_mem_filter hmem
          have hxm : le x m = true := by
            rcases hmem' with _ | hmem'
            · exact hxy
            · exact htrans x y m hxy (hy m (by assumption))
          simp [hxm]
      · rw [List.filter_cons_of_neg (by simpa using hpx)]
        simp [hpx]
    · -- ¬ le x y : insert gives y :: insertBy x ys
      rename_i hxy
      by_cases hpy : p y
      · rw [List.filter_cons_of_pos (by simpa using hpy),
            List.filter_cons_of_pos (by simpa using hpy)]
        simp only [List.head?_cons]
        by_cases hpx : p x
        · simp only [hpx, if_true]
          have hf : le x y = false := by
            cases h : le x y
            · rfl
            · exact absurd h hxy
          simp [hf]
        · simp [hpx]
      · rw [List.filter_cons_of_neg (by simpa using hpy),
            List.filter_cons_of_neg (by simpa using hpy)]
        exact ih hys

theorem head?_filter_isortBy
    (htot : ∀ a b, le a b = true ∨ le b a = true)
    (htrans : ∀ a b c, le a b = true → le b c = true → le a c = true)
    (p : α → Bool) (l : List α) :
    ((isortBy le l).filter p).head? = firstMinBy le (l.filter p) := by
  induction l with
  | nil => rfl
  | cons x xs ih =>
    rw [isortBy, head?_filter_insertBy htrans p (pairwise_isortBy htot htrans xs)]
    by_cases hpx : p x
    · rw [List.filter_cons_of_pos (by simpa using hpx)]
      simp only [hpx, if_true, firstMinBy, ih]
    · rw [List.filter_cons_of_neg (by simpa using hpx)]
      simp only [hpx, if_false]
      exact ih

theorem firstMinBy_split
    (htot : ∀ a b, le a b = true ∨ le b a = true)
    (htrans : ∀ a b c, le a b = true → le b c = true → le a c = true)
    {l : List α} {m : α} (h : firstMinBy le l = some m) :
    ∃ l1 l2, l = l1 ++ m :: l2 ∧ (∀ x ∈ l1, le x m = false) ∧
      (∀ x ∈ l2, le m x = true) := by
  induction l generalizing m with
  | nil => simp [firstMinBy] at h
  | cons x xs ih =>
    simp only [firstMinBy] at h
    cases hxs : firstMinBy le xs with
    | none =>
      have hnil : xs = [] := (firstMinBy_none_iff le).mp hxs
      rw [hxs] at h
      simp at h
      subst h
      exact ⟨[], [], by simp [hnil], by simp, by simp [hnil]⟩
    | some m' =>
      rw [hxs] at h
      have h' : (if le x m' = true then some x else some m') = some m := h
      rcases ih hxs with ⟨l1, l2, heq, h1, h2⟩
      by_cases hle : le x m' = true
      · rw [if_pos hle] at h'
        have hm : m = x := by simpa using h'.symm
        subst hm
        refine ⟨[], xs, rfl, by simp, ?_⟩
        intro z hz
        rw [heq] at hz
        rcases List.mem_append.mp hz with hz | hz
        · rcases htot m' z with h'' | h''
          · exact htrans m m' z hle h''
          · exact absurd h'' (by simp [h1 z hz])
        · rcases hz with _ | hz
          · exact hle
          · exact htrans m m' z hle (h2 z (by assumption))
      · rw [if_neg hle] at h'
        have hm : m = m' := by simpa using h'.symm
        subst hm
        refine ⟨x :: l1, l2, by rw [heq]; rfl, ?_, h2⟩
        intro z hz
        rcases hz with _ | hz
        · cases h'' : le x m
          · rfl
          · exact absurd h'' hle
        · exact h1 z (by assumption)

theorem firstMinBy_min
    (htot : ∀ a b, le a b = true ∨ le b a = true)
    (htrans : ∀ a b c, le a b = true → le b c = true → le a c = true)
    {l : List α} {m : α} (h : firstMinBy le l = some m) :
    m ∈ l ∧ ∀ x ∈ l, le m x = true := by
  rcases firstMinBy_split htot htrans h with ⟨l1, l2, heq, h1, h2⟩
  subst heq
  constructor
  · simp
  · intro x hx
    rcases List.mem_append.mp hx with hx | hx
    · rcases htot m x with h' | h'
      · exact h'
      · exact absurd h' (by simp [h1 x hx])
    · rcases hx with _ | hx
      · rcases htot m m with h' | h' <;> exact h'
      · exact h2 x (by assumption)

end SortLemmas2



/-! ## Order properties of the two comparators, and `groupby` bridge lemmas -/

theorem diffLe_total (t : ℚ) : ∀ a b, diffLe t a b = true ∨ diffLe t b a = true := by
  intro a b
  simp only [diffLe, decide_eq_true_eq]
  exact le_total _ _

theorem diffLe_trans (t : ℚ) :
    ∀ a b c, diffLe t a b = true → diffLe t b c = true → diffLe t a c = true := by
  intro a b c
  simp only [diffLe, decide_eq_true_eq]
  exact le_trans

theorem catLe_total : ∀ a b, catLe a b = true ∨ catLe b a = true := by
  intro a
  induction a with
  | nil => intro b; left; rfl
  | cons x xs ih =>
    intro b
    cases b with
    | nil => right; rfl
    | cons y ys =>
      simp only [catLe]
      by_cases h1 : x.toNat < y.toNat
      · left; simp [h1]
      · by_cases h2 : y.toNat < x.toNat
        · right; simp [h2]
        · rcases ih ys with h | h
          · left; simp [h1, h2, h]
          · right; simp [h1, h2, h]

theorem catLe_trans :
    ∀ a b c, catLe a b = true → catLe b c = true → catLe a c = true := by
  intro a
  induction a with
  | nil => intro b c _ _; rfl
  | cons x xs ih =>
    intro b c hab hbc
    cases b with
    | nil => simp [catLe] at hab
    | cons y ys =>
      cases c with
      | nil => simp [catLe] at hbc
      | cons z zs =>
        simp only [catLe] at hab hbc ⊢
        by_cases hxy1 : x.toNat < y.toNat
        · by_cases hyz1 : y.toNat < z.toNat
          · have hxz : x.toNat < z.toNat := by omega
            simp [hxz]
          · by_cases hyz2 : z.toNat < y.toNat
            · simp [hyz1, hyz2] at hbc
            · have hxz : x.toNat < z.toNat := by omega
              simp [hxz]
        · by_cases hxy2 : y.toNat < x.toNat
          · simp [hxy1, hxy2] at hab
          · rw [if_neg hxy1, if_neg hxy2] at hab
            by_cases hyz1 : y.toNat < z.toNat
            · have hxz : x.toNat < z.toNat := by omega
              simp [hxz]
            · by_cases hyz2 : z.toNat < y.toNat
              · simp [hyz1, hyz2] at hbc
              · rw [if_neg hyz1, if_neg hyz2] at hbc
                have hxz1 : ¬ x.toNat < z.toNat := by omega
                have hxz2 : ¬ z.toNat < x.toNat := by omega
                rw [if_neg hxz1, if_neg hxz2]
                exact ih ys zs hab hbc

theorem chosenFor_eq_firstMin (ms : List Row) (t : ℚ) (c : List Char) :
    chosenFor ms t c =
      firstMinBy (diffLe t) (ms.filter (fun r => decide (r.pipe_category = c))) := by
  rw [chosenFor, ← head?_filter',
    head?_filter_isortBy (diffLe_total t) (diffLe_trans t)]

theorem chosenFor_cat {ms : List Row} {t : ℚ} {c : List Char} {r : Row}
    (h : chosenFor ms t c = some r) : r.pipe_category = c := by
  have h' := List.find?_some h
  exact of_decide_eq_true h'

theorem chosenFor_isSome {ms : List Row} {t : ℚ} {c : List Char}
    (h : c ∈ ms.map Row.pipe_category) : (chosenFor ms t c).isSome := by
  rcases List.mem_map.mp h with ⟨r, hr, rfl⟩
  rw [chosenFor]
  exact List.find?_isSome.mpr ⟨r, (mem_isortBy _).mpr hr, by simp⟩

theorem find?_filterMap_cats (f : List Char → Option Row)
    (hf : ∀ c' r', f c' = some r' → r'.pipe_category = c') :
    ∀ (cats : List (List Char)) (c : List Char), c ∈ cats → (f c).isSome →
      (cats.filterMap f).find? (fun r => decide (r.pipe_category = c)) = f c := by
  intro cats
  induction cats with
  | nil => intro c hc _; simp at hc
  | cons c' cs ih =>
    intro c hc hsome
    by_cases hcc : c' = c
    · subst hcc
      cases hfc : f c' with
      | none => rw [hfc] at hsome; simp at hsome
      | some r =>
        simp only [List.filterMap_cons, hfc]
        have hcat : r.pipe_category = c' := hf c' r hfc
        simp [List.find?, hcat]
    · have hcs : c ∈ cs := by
        rcases List.mem_cons.mp hc with h | h
        · exact absurd h.symm hcc
        · exact h
      cases hfc : f c' with
      | none =>
        simp only [List.filterMap_cons, hfc]
        exact ih c hcs hsome
      | some r' =>
        simp only [List.filterMap_cons, hfc]
        have hcat : r'.pipe_category = c' := hf c' r' hfc
        rw [List.find?_cons_of_neg _ (by simp [hcat, hcc])]
        exact ih c hcs hsome

theorem find?_nearestPerCategory {ms : List Row} {t : ℚ} {c : List Char}
    (hc : c ∈ ms.map Row.pipe_category) :
    (nearestPerCategory ms t).find? (fun r => decide (r.pipe_category = c)) =
      chosenFor ms t c := by
  refine find?_filterMap_cats (chosenFor ms t)
    (fun c' r' h => chosenFor_cat h) (sortedCats ms) c ?_ (chosenFor_isSome hc)
  rw [sortedCats, mem_isortBy]
  exact List.mem_dedup.mpr hc

theorem head?_nearestPerCategory {ms : List Row} {t : ℚ} (hne : ms ≠ []) :
    ∃ c0, c0 ∈ ms.map Row.pipe_category ∧
      (∀ c ∈ ms.map Row.pipe_category, catLe c0 c = true) ∧
      (nearestPerCategory ms t).head? = chosenFor ms t c0 := by
  cases hcats : sortedCats ms with
  | nil =>
    exfalso
    cases ms with
    | nil => exact hne rfl
    | cons r rs =>
      have hmem : r.pipe_category ∈ sortedCats (r :: rs) := by
        rw [sortedCats, mem_isortBy]
        exact List.mem_dedup.mpr (by simp)
      rw [hcats] at hmem
      simp at hmem
  | cons c0 cs =>
    have hc0 : firstMinBy catLe ((ms.map Row.pipe_category).dedup) = some c0 := by
      have := head?_isortBy catLe ((ms.map Row.pipe_category).dedup)
      rw [← this, ← sortedCats, hcats]
      rfl
    have hmin := firstMinBy_min catLe_total catLe_trans hc0
    have hc0mem : c0 ∈ ms.map Row.pipe_category := List.mem_dedup.mp hmin.1
    refine ⟨c0, hc0mem, ?_, ?_⟩
    · intro c hcm
      exact hmin.2 c (List.mem_dedup.mpr hcm)
    · rw [nearestPerCategory, hcats]
      cases hf : chosenFor ms t c0 with
      | none =>
        have := chosenFor_isSome (t := t) hc0mem
        rw [hf] at this
        simp at this
      | some r => rw [List.filterMap_cons, hf]; rfl



/-! ## Claims -/

/-- C6: the two mass implementations agree.  `weight.py`'s
`calculate_pipe_weight(w, t, 6)` — density 7850 kg/m³ times strip volume —
equals `app.py`'s `MASS_FACTOR * w * t` for every width and thickness, and
the constant satisfies `K = density_kg_per_m3 * length_m * 1e-6`. -/
theorem C6_mass_implementations_agree :
    (∀ w t : ℚ, calculate_pipe_weight w t 6 = MASS_FACTOR * w * t) ∧
    MASS_FACTOR = DENSITY * LENGTH_M * (1 / 1000000) := by
  constructor
  · intro w t
    norm_num [calculate_pipe_weight, MASS_FACTOR, DENSITY]
    ring
  · norm_num [MASS_FACTOR, DENSITY, LENGTH_M]

/-- C10: `find_best_matches` with an empty or whitespace-only category token
returns the entire table unchanged. -/
theorem C10_empty_token_returns_df (token : List Char) (df : List Row)
    (h : pyStrip token = []) : find_best_matches token df = df := by
  simp [find_best_matches, pyLower, h]

/-- Witness for C10 at a concrete whitespace token and one-row table. -/
theorem C10_empty_token_returns_df_witness :
    pyStrip "  ".toList = [] ∧
    find_best_matches "  ".toList [mergeRowUnknownMass "c".toList 2 5] =
      [mergeRowUnknownMass "c".toList 2 5] :=
  ⟨by decide, C10_empty_token_returns_df _ _ (by decide)⟩

/-- C8 (code bug evaluation): on the query `"40x40"` — a `WxH` pair with no
mass or thickness token — the parser does not extract `"40x40"` as the
category token.  The quantity regex `(?:\bqty\b|\bx\b)?\s*(\d+)\b` matches
the trailing `40`, and its removal `re.sub("40", " ", s, count=1)` deletes
the *first* `40`, leaving category token `"x40"` and `qty = 40`. -/
theorem C8_wxh_pair_not_extracted :
    parse_search_text "40x40".toList =
      { raw := "40x40".toList
        category := some "x40".toList
        thickness_mm := none
        weight_kg := none
        qty := some 40 } := by
  decide

/-- C4 (counterexample): a merged row with unknown mass (filled to `0`) and
2 000 kg of stock gets `num_pieces_available = 0` silently — the same value
as a row with genuinely zero stock — and the output schema carries no
"mass unavailable" marker, contradicting the claim that an explicit
condition is reported instead of a silent zero piece count. -/
theorem C4_counterexample :
    (mergeRowUnknownMass "c".toList 2 2).mass_kg = 0 ∧
    (mergeRowUnknownMass "c".toList 2 2).stock_kg = 2000 ∧
    (mergeRowUnknownMass "c".toList 2 2).num_pieces_available = 0 ∧
    (mergeRowUnknownMass "c".toList 2 0).num_pieces_available = 0 := by
  refine ⟨rfl, by norm_num [mergeRowUnknownMass], ?_, ?_⟩ <;>
    simp [mergeRowUnknownMass, num_pieces_of]

/-- C4 (amended): for every row whose mass-per-item is zero or unknown the
pipeline indeed never divides by that mass — both division sites are guarded
— but it reports `0` pieces (merge step) and `0` remaining pieces (search
handler) with no explicit "mass unavailable" condition. -/
theorem C4_amended_no_division_silent_zero (r : Row) (qty : ℕ)
    (hm : r.mass_kg ≤ 0) :
    num_pieces_of r.stock_kg r.mass_kg = 0 ∧ remainingPieces r qty = 0 := by
  constructor
  · simp [num_pieces_of, not_lt.mpr hm]
  · simp [remainingPieces, not_lt.mpr hm]

/-- Witness for the amended C4 at a concrete unknown-mass row. -/
theorem C4_amended_witness :
    num_pieces_of (mergeRowUnknownMass "c".toList 2 2).stock_kg
        (mergeRowUnknownMass "c".toList 2 2).mass_kg = 0 ∧
    remainingPieces (mergeRowUnknownMass "c".toList 2 2) 7 = 0 :=
  C4_amended_no_division_silent_zero (mergeRowUnknownMass "c".toList 2 2) 7
    (le_refl 0)



/-- Convenience constructor for concrete test rows: piece count kept
consistent with the merge step's computation. -/
def sampleRow (cat : List Char) (th mass stock_kg : ℚ) : Row :=
  { pipe_category := cat
    thickness_mm := th
    strip_width_mm := 0
    mass_kg := mass
    stock_mt := stock_kg / 1000
    stock_kg := stock_kg
    num_pieces_available := num_pieces_of stock_kg mass }

/-- C2 (counterexample): the verdict of the search handler is not the claimed
tri-state.  For a row with unknown mass (`mass_kg = 0`, piece count `0`) and
positive stock, requesting 3 pieces yields verdict "Available" — the total
requested weight `0 * 3` is never above stock — although the claim requires
"Not available" (mass unknown, and `available_pieces = 0 < 3`). -/
theorem C2_counterexample :
    verdictOf (mergeRowUnknownMass "c".toList 2 5) 3 = Verdict.available ∧
    (mergeRowUnknownMass "c".toList 2 5).mass_kg = 0 ∧
    (mergeRowUnknownMass "c".toList 2 5).num_pieces_available = 0 ∧
    ¬ ((3 : ℤ) ≤ (mergeRowUnknownMass "c".toList 2 5).num_pieces_available) := by
  refine ⟨?_, rfl, ?_, ?_⟩
  · simp [verdictOf, mergeRowUnknownMass]
  · simp [mergeRowUnknownMass, num_pieces_of]
  · simp [mergeRowUnknownMass, num_pieces_of]

/-- C2 (amended): the verdict is binary, decided by
`stock_kg ≥ mass_per_item * qty`; when the mass-per-item is positive and the
piece count is the merge step's `floor(stock_kg / mass_kg)`, "Available" is
equivalent to `available_pieces ≥ requested_pieces` and "NOT available" to
its negation — there is no distinct Low/Partial state, and unknown mass does
not force "Not available". -/
theorem C2_amended_binary_verdict (r : Row) (qty : ℕ) (hm : 0 < r.mass_kg)
    (hp : r.num_pieces_available = num_pieces_of r.stock_kg r.mass_kg) :
    (verdictOf r qty = Verdict.available ↔ (qty : ℤ) ≤ r.num_pieces_available) ∧
    (verdictOf r qty = Verdict.notAvailable ↔ ¬ (qty : ℤ) ≤ r.num_pieces_available) := by
  rw [hp, num_pieces_of, if_pos hm]
  have key : (r.mass_kg * qty ≤ r.stock_kg) ↔ ((qty : ℤ) ≤ ⌊r.stock_kg / r.mass_kg⌋) := by
    rw [Int.le_floor, le_div_iff hm]
    push_cast
    rw [mul_comm]
  by_cases h : r.mass_kg * qty ≤ r.stock_kg
  · have hq := key.mp h
    simp [verdictOf, h, hq]
  · have hq : ¬ ((qty : ℤ) ≤ ⌊r.stock_kg / r.mass_kg⌋) := fun hc => h (key.mpr hc)
    simp [verdictOf, h, hq]

/-- Witness for the amended C2 on a concrete row (mass 2 kg, stock 10 kg,
5 pieces, request 3). -/
theorem C2_amended_witness :
    0 < (sampleRow "a".toList 1 2 10).mass_kg ∧
    (sampleRow "a".toList 1 2 10).num_pieces_available =
      num_pieces_of (sampleRow "a".toList 1 2 10).stock_kg
        (sampleRow "a".toList 1 2 10).mass_kg ∧
    ((verdictOf (sampleRow "a".toList 1 2 10) 3 = Verdict.available ↔
        (3 : ℤ) ≤ (sampleRow "a".toList 1 2 10).num_pieces_available) ∧
     (verdictOf (sampleRow "a".toList 1 2 10) 3 = Verdict.notAvailable ↔
        ¬ (3 : ℤ) ≤ (sampleRow "a".toList 1 2 10).num_pieces_available)) :=
  ⟨by norm_num [sampleRow], rfl,
    C2_amended_binary_verdict (sampleRow "a".toList 1 2 10) 3
      (by norm_num [sampleRow]) rfl⟩



theorem sampleRow_cat (c : List Char) (th m s : ℚ) :
    (sampleRow c th m s).pipe_category = c := rfl

theorem sampleRow_th (c : List Char) (th m s : ℚ) :
    (sampleRow c th m s).thickness_mm = th := rfl

theorem sampleRow_mass (c : List Char) (th m s : ℚ) :
    (sampleRow c th m s).mass_kg = m := rfl

theorem sampleRow_stock (c : List Char) (th m s : ℚ) :
    (sampleRow c th m s).stock_kg = s := rfl

theorem mergeRow_th (c : List Char) (th w s : ℚ) :
    (mergeRow c th w s).thickness_mm = th := rfl

theorem mergeRow_mass (c : List Char) (th w s : ℚ) :
    (mergeRow c th w s).mass_kg = weight_sheet_mass w th := rfl

theorem mergeRow_stock (c : List Char) (th w s : ℚ) :
    (mergeRow c th w s).stock_kg = s * 1000 := rfl

/-- C3 (counterexample): a declared mass does not become the reported
mass-per-item.  Query `"25 NB 3kg"` declares 3 kg; against a table row with
mass 3.2 kg the weight filter keeps the row (|3.2 − 3| ≤ 0.5) and the
handler reports the row's table mass 3.2 kg, not 3 kg. -/
theorem C3_counterexample :
    (parse_search_text "25 NB 3kg".toList).weight_kg = some 3 ∧
    (searchCore [sampleRow "25 nb".toList (6/5) (16/5) 100] none (some 3) 1).map
        (fun res => res.row.mass_kg) = some (16/5) ∧
    (16 / 5 : ℚ) ≠ 3 := by
  refine ⟨?_, ?_, by norm_num⟩
  · have h : (parse_search_text "25 NB 3kg".toList).weight_kg =
        some (decValue ['3'] []) := rfl
    have h3 : digitsToNat ['3'] = 3 := by decide
    have h0 : digitsToNat [] = 0 := by decide
    rw [h]
    simp [decValue, h3, h0]
  · have hw : weightWindow 3 (sampleRow "25 nb".toList (6/5) (16/5) 100) = true := by
      simp only [weightWindow, sampleRow_mass, decide_eq_true_eq]
      norm_num
    have hfil : [sampleRow "25 nb".toList (6/5) (16/5) 100].filter (weightWindow 3) =
        [sampleRow "25 nb".toList (6/5) (16/5) 100] := by
      simp only [List.filter_cons, hw, if_true, List.filter_nil]
    simp only [searchCore, thicknessFilter, weightFilter, hfil, List.isEmpty_cons,
      Bool.false_eq_true, if_false, List.head?_cons]
    rfl

/-- C3 (amended): the declared mass acts only as a tolerance window (within
1% or within 0.5 kg) on the table's `mass_kg`; whenever some matched row
satisfies the window, the handler reports the table mass of the first such
row — the declared value itself is never installed as the mass-per-item. -/
theorem C3_amended_window_filter (ms : List Row) (w : ℚ) (qty : ℕ)
    (hfind : (ms.find? (weightWindow w)).isSome) :
    (searchCore ms none (some w) qty).map (fun res => res.row.mass_kg) =
      (ms.find? (weightWindow w)).map Row.mass_kg := by
  rcases Option.isSome_iff_exists.mp hfind with ⟨r, hr⟩
  have hhead : (ms.filter (weightWindow w)).head? = some r := by
    rw [head?_filter']
    exact hr
  have hne : (ms.filter (weightWindow w)).isEmpty = false := by
    cases hfil : ms.filter (weightWindow w) with
    | nil => rw [hfil] at hhead; simp at hhead
    | cons a l => rfl
  simp only [searchCore, thicknessFilter, weightFilter, hne, Bool.false_eq_true,
    if_false, hhead, hr]
  rfl

/-- Witness for the amended C3: the row of the counterexample. -/
theorem C3_amended_witness :
    (([sampleRow "25 nb".toList (6/5) (16/5) 100].find? (weightWindow 3)).isSome) ∧
    (searchCore [sampleRow "25 nb".toList (6/5) (16/5) 100] none (some 3) 7).map
        (fun res => res.row.mass_kg) =
      ([sampleRow "25 nb".toList (6/5) (16/5) 100].find? (weightWindow 3)).map
        Row.mass_kg := by
  have hw : weightWindow 3 (sampleRow "25 nb".toList (6/5) (16/5) 100) = true := by
    simp only [weightWindow, sampleRow_mass, decide_eq_true_eq]
    norm_num
  have hfind : [sampleRow "25 nb".toList (6/5) (16/5) 100].find? (weightWindow 3) =
      some (sampleRow "25 nb".toList (6/5) (16/5) 100) :=
    List.find?_cons_of_pos _ hw
  exact ⟨by rw [hfind]; rfl, C3_amended_window_filter _ 3 7 (by rw [hfind]; rfl)⟩

/-- C5: the documented scenario.  Width 40 mm and thickness 1.6 mm give
`mass_per_item = 0.0471·40·1.6 = 3.0144 kg`; 2 metric tons convert to
2000 kg (×1000) and to `floor(2000/3.0144) = 663` available pieces; a
request for 500 pieces is Available with 163 remaining pieces. -/
theorem C5_scenario :
    mergeRow "40x40".toList (8/5) 40 2 =
      { pipe_category := "40x40".toList
        thickness_mm := 8/5
        strip_width_mm := 40
        mass_kg := MASS_FACTOR * 40 * (8/5)
        stock_mt := 2
        stock_kg := 2000
        num_pieces_available := 663 } ∧
    MASS_FACTOR * 40 * (8/5 : ℚ) = 1884/625 ∧
    searchCore [mergeRow "40x40".toList (8/5) 40 2] (some (8/5)) none 500 =
      some { row := mergeRow "40x40".toList (8/5) 40 2
             verdict := Verdict.available
             remaining_pieces := 163 } := by
  have hK : MASS_FACTOR * 40 * (8/5 : ℚ) = 1884/625 := by norm_num [MASS_FACTOR]
  have hmass : weight_sheet_mass 40 (8/5) = 1884/625 := by
    norm_num [weight_sheet_mass, round6, roundHalfEven, MASS_FACTOR, Int.floor_eq_iff]
  have hpieces : num_pieces_of 2000 (1884/625) = 663 := by
    norm_num [num_pieces_of, Int.floor_eq_iff]
  refine ⟨?_, hK, ?_⟩
  · rw [mergeRow, Row.mk.injEq]
    refine ⟨rfl, rfl, rfl, by rw [hmass, hK], rfl, by norm_num, ?_⟩
    rw [hmass]
    norm_num [hpieces]
  · have hfil : ([mergeRow "40x40".toList (8/5) 40 2].filter
        (fun r => decide (r.thickness_mm = (8/5 : ℚ)))) =
        [mergeRow "40x40".toList (8/5) 40 2] := by
      simp only [List.filter_cons, mergeRow_th, decide_eq_true_eq, List.filter_nil]
      simp
    have hmass' : (mergeRow "40x40".toList (8/5) 40 2).mass_kg = 1884/625 := by
      rw [mergeRow_mass, hmass]
    have hstock : (mergeRow "40x40".toList (8/5) 40 2).stock_kg = 2000 := by
      rw [mergeRow_stock]
      norm_num
    have hcond : (mergeRow "40x40".toList (8/5) 40 2).mass_kg * ((500 : ℕ) : ℚ) ≤
        (mergeRow "40x40".toList (8/5) 40 2).stock_kg := by
      rw [hmass', hstock]
      norm_num
    simp only [searchCore, thicknessFilter, weightFilter, hfil, List.isEmpty_cons,
      Bool.false_eq_true, if_false, List.head?_cons]
    refine congrArg some ?_
    refine congrArg₂ (SearchResult.mk _) ?_ ?_
    · rw [verdictOf, if_pos hcond]
    · rw [remainingPieces, if_pos hcond,
        if_pos (by rw [hmass']; norm_num : (mergeRow "40x40".toList (8/5) 40 2).mass_kg > 0)]
      rw [hmass', hstock]
      norm_num [Int.floor_eq_iff]



/-- C7 (counterexample): with no requested thickness and no declared mass,
the handler does not select the smallest available thickness: it uses
`iloc[0]`, the first matching row in table order.  With rows listed as
thickness 2.0 then 1.2 for the same category, the availability computation
runs on the 2.0 row although 1.2 is available. -/
theorem C7_counterexample :
    (searchCore [sampleRow "c".toList 2 1 10, sampleRow "c".toList (6/5) 1 10]
        none none 1).map (fun res => res.row.thickness_mm) = some 2 ∧
    sampleRow "c".toList (6/5) 1 10 ∈
      [sampleRow "c".toList 2 1 10, sampleRow "c".toList (6/5) 1 10] ∧
    (sampleRow "c".toList (6/5) 1 10).thickness_mm < 2 := by
  refine ⟨rfl, by simp, ?_⟩
  rw [sampleRow_th]
  norm_num

/-- C7 (amended): when no thickness is requested and no mass is declared,
the row used for the availability computation is the **first row of the
matched set in original table order** (the first row whose lowered category
contains the search token), whatever its thickness; the "thinnest available"
row is used only if it happens to come first. -/
theorem C7_amended_first_match_used (df : List Row) (token : List Char) (qty : ℕ)
    (ht : pyLower (pyStrip token) ≠ [])
    (hfind : (df.find? (catContains (pyLower (pyStrip token)))).isSome) :
    (runSearch df token none none qty).map SearchResult.row =
      df.find? (catContains (pyLower (pyStrip token))) := by
  rcases Option.isSome_iff_exists.mp hfind with ⟨r, hr⟩
  have hhead : (df.filter (catContains (pyLower (pyStrip token)))).head? = some r := by
    rw [head?_filter']
    exact hr
  have hne : (df.filter (catContains (pyLower (pyStrip token)))).isEmpty = false := by
    cases hfil : df.filter (catContains (pyLower (pyStrip token))) with
    | nil => rw [hfil] at hhead; simp at hhead
    | cons a l => rfl
  have htE : (pyLower (pyStrip token)).isEmpty = false := by
    cases h : pyLower (pyStrip token) with
    | nil => exact absurd h ht
    | cons a l => rfl
  rw [runSearch, find_best_matches]
  simp only [htE, Bool.false_eq_true, if_false, hne, Bool.not_false, if_true]
  simp only [searchCore, thicknessFilter, weightFilter, hhead, hr]
  rfl

/-- Witness for the amended C7: token `"a"` against a one-row table. -/
theorem C7_amended_witness :
    pyLower (pyStrip "a".toList) ≠ [] ∧
    (([sampleRow "pipe a".toList 2 1 10].find?
        (catContains (pyLower (pyStrip "a".toList)))).isSome) ∧
    (runSearch [sampleRow "pipe a".toList 2 1 10] "a".toList none none 5).map
        SearchResult.row =
      [sampleRow "pipe a".toList 2 1 10].find?
        (catContains (pyLower (pyStrip "a".toList))) :=
  ⟨by decide, by decide,
    C7_amended_first_match_used [sampleRow "pipe a".toList 2 1 10] "a".toList 5
      (by decide) (by decide)⟩



/-- C1 (counterexample): requested thickness 1.6 against available
thicknesses {1.2, 2.0} listed as 2.0 first: both are 0.4 away, but the
stable diff-sort keeps the 2.0 row first and `groupby(...).first()` returns
it — the *smaller* thickness 1.2 is not returned, refuting the claimed
tie-break. -/
theorem C1_counterexample :
    qabs (2 - 8/5) = qabs (6/5 - 8/5) ∧
    ([sampleRow "c".toList 2 1 10, sampleRow "c".toList (6/5) 1 10].filter
        (fun r => decide (r.thickness_mm = (8/5 : ℚ)))) = [] ∧
    (searchCore [sampleRow "c".toList 2 1 10, sampleRow "c".toList (6/5) 1 10]
        (some (8/5)) none 1).map (fun res => res.row.thickness_mm) = some 2 := by
  have hd : diffLe (8/5) (sampleRow "c".toList 2 1 10)
      (sampleRow "c".toList (6/5) 1 10) = true := by
    simp only [diffLe, sampleRow_th, qabs, decide_eq_true_eq]
    norm_num
  have hexact : ([sampleRow "c".toList 2 1 10, sampleRow "c".toList (6/5) 1 10].filter
      (fun r => decide (r.thickness_mm = (8/5 : ℚ)))) = [] := by
    simp only [List.filter_cons, sampleRow_th, List.filter_nil, decide_eq_true_eq]
    norm_num
  have hsort : isortBy (diffLe (8/5))
      [sampleRow "c".toList 2 1 10, sampleRow "c".toList (6/5) 1 10] =
      [sampleRow "c".toList 2 1 10, sampleRow "c".toList (6/5) 1 10] := by
    simp only [isortBy, insertBy, hd, if_true]
  have hcats : sortedCats [sampleRow "c".toList 2 1 10, sampleRow "c".toList (6/5) 1 10] =
      ["c".toList] := by decide
  have hch : chosenFor [sampleRow "c".toList 2 1 10, sampleRow "c".toList (6/5) 1 10]
      (8/5) "c".toList = some (sampleRow "c".toList 2 1 10) := by
    rw [chosenFor, hsort]
    exact List.find?_cons_of_pos _ (by decide)
  have hnear : nearestPerCategory
      [sampleRow "c".toList 2 1 10, sampleRow "c".toList (6/5) 1 10] (8/5) =
      [sampleRow "c".toList 2 1 10] := by
    rw [nearestPerCategory, hcats]
    simp only [List.filterMap_cons, hch, List.filterMap_nil]
  refine ⟨by norm_num [qabs], hexact, ?_⟩
  simp only [searchCore, thicknessFilter, weightFilter, hexact, List.isEmpty_nil,
    if_true, hnear, List.head?_cons]
  rfl

/-- C1 (amended): on the nearest-thickness path (no exact match), the row
kept for a matched category minimises |thickness − t| among that category's
rows, and among equidistant candidates the one whose row appears *first in
the match order* wins — not necessarily the smaller thickness.  (With rows
listed in ascending thickness the two tie-break rules coincide, e.g.
1.6 against rows 1.2 then 2.0 resolves to 1.2.) -/
theorem C1_amended_nearest_tie_first_in_order (ms : List Row) (t : ℚ)
    (c : List Char)
    (hex : ms.filter (fun r => decide (r.thickness_mm = t)) = [])
    (hc : c ∈ ms.map Row.pipe_category) :
    ∃ r l1 l2,
      (thicknessFilter ms (some t)).find?
          (fun r' => decide (r'.pipe_category = c)) = some r ∧
      ms.filter (fun r' => decide (r'.pipe_category = c)) = l1 ++ r :: l2 ∧
      (∀ x ∈ l1, qabs (r.thickness_mm - t) < qabs (x.thickness_mm - t)) ∧
      (∀ x ∈ l2, qabs (r.thickness_mm - t) ≤ qabs (x.thickness_mm - t)) := by
  have hTF : thicknessFilter ms (some t) = nearestPerCategory ms t := by
    rw [thicknessFilter, hex]
    rfl
  rw [hTF, find?_nearestPerCategory hc, chosenFor_eq_firstMin]
  cases hfm : firstMinBy (diffLe t)
      (ms.filter (fun r' => decide (r'.pipe_category = c))) with
  | none =>
    exfalso
    rw [firstMinBy_none_iff] at hfm
    rcases List.mem_map.mp hc with ⟨r0, hr0, rfl⟩
    have hmem : r0 ∈ ms.filter
        (fun r' => decide (r'.pipe_category = r0.pipe_category)) :=
      List.mem_filter.mpr ⟨hr0, by simp⟩
    rw [hfm] at hmem
    simp at hmem
  | some r =>
    rcases firstMinBy_split (diffLe_total t) (diffLe_trans t) hfm with
      ⟨l1, l2, heq, h1, h2⟩
    refine ⟨r, l1, l2, rfl, heq, ?_, ?_⟩
    · intro x hx
      have h := h1 x hx
      simp only [diffLe, decide_eq_false_iff_not, not_le] at h
      exact h
    · intro x hx
      have h := h2 x hx
      simp only [diffLe, decide_eq_true_eq] at h
      exact h

/-- Witness for the amended C1 on the tie scenario (rows 2.0 then 1.2,
requested 1.6). -/
theorem C1_amended_witness :
    ([sampleRow "c".toList 2 1 10, sampleRow "c".toList (6/5) 1 10].filter
        (fun r => decide (r.thickness_mm = (8/5 : ℚ)))) = [] ∧
    "c".toList ∈ [sampleRow "c".toList 2 1 10,
        sampleRow "c".toList (6/5) 1 10].map Row.pipe_category ∧
    (∃ r l1 l2,
      (thicknessFilter [sampleRow "c".toList 2 1 10, sampleRow "c".toList (6/5) 1 10]
          (some (8/5))).find? (fun r' => decide (r'.pipe_category = "c".toList)) = some r ∧
      ([sampleRow "c".toList 2 1 10, sampleRow "c".toList (6/5) 1 10].filter
          (fun r' => decide (r'.pipe_category = "c".toList))) = l1 ++ r :: l2 ∧
      (∀ x ∈ l1, qabs (r.thickness_mm - 8/5) < qabs (x.thickness_mm - 8/5)) ∧
      (∀ x ∈ l2, qabs (r.thickness_mm - 8/5) ≤ qabs (x.thickness_mm - 8/5))) := by
  have hexact : ([sampleRow "c".toList 2 1 10, sampleRow "c".toList (6/5) 1 10].filter
      (fun r => decide (r.thickness_mm = (8/5 : ℚ)))) = [] := by
    simp only [List.filter_cons, sampleRow_th, List.filter_nil, decide_eq_true_eq]
    norm_num
  exact ⟨hexact, by decide,
    C1_amended_nearest_tie_first_in_order _ (8/5) "c".toList hexact (by decide)⟩



/-- C9 (counterexample): on the nearest-thickness path the row used is *not*
the first matching row in original table order.  With matched rows listed as
category `"b"` then `"a"` and an inexact requested thickness,
`groupby("pipe_category")` re-orders the groups alphabetically, so the
availability computation runs on the `"a"` row although the `"b"` row comes
first in the table. -/
theorem C9_counterexample :
    ([sampleRow "b".toList 3 1 10, sampleRow "a".toList 10 1 10].filter
        (fun r => decide (r.thickness_mm = (1 : ℚ)))) = [] ∧
    (searchCore [sampleRow "b".toList 3 1 10, sampleRow "a".toList 10 1 10]
        (some 1) none 1).map (fun res => res.row.pipe_category) = some "a".toList ∧
    ([sampleRow "b".toList 3 1 10, sampleRow "a".toList 10 1 10].head?).map
        Row.pipe_category = some "b".toList ∧
    "a".toList ≠ "b".toList := by
  have hd : diffLe 1 (sampleRow "b".toList 3 1 10)
      (sampleRow "a".toList 10 1 10) = true := by
    simp only [diffLe, sampleRow_th, qabs, decide_eq_true_eq]
    norm_num
  have hexact : ([sampleRow "b".toList 3 1 10, sampleRow "a".toList 10 1 10].filter
      (fun r => decide (r.thickness_mm = (1 : ℚ)))) = [] := by
    simp only [List.filter_cons, sampleRow_th, List.filter_nil, decide_eq_true_eq]
    norm_num
  have hsort : isortBy (diffLe 1)
      [sampleRow "b".toList 3 1 10, sampleRow "a".toList 10 1 10] =
      [sampleRow "b".toList 3 1 10, sampleRow "a".toList 10 1 10] := by
    simp only [isortBy, insertBy, hd, if_true]
  have hcats : sortedCats [sampleRow "b".toList 3 1 10, sampleRow "a".toList 10 1 10] =
      ["a".toList, "b".toList] := by decide
  have hchA : chosenFor [sampleRow "b".toList 3 1 10, sampleRow "a".toList 10 1 10]
      1 "a".toList = some (sampleRow "a".toList 10 1 10) := by
    rw [chosenFor, hsort]
    rw [List.find?_cons_of_neg _ (by decide)]
    exact List.find?_cons_of_pos _ (by decide)
  have hchB : chosenFor [sampleRow "b".toList 3 1 10, sampleRow "a".toList 10 1 10]
      1 "b".toList = some (sampleRow "b".toList 3 1 10) := by
    rw [chosenFor, hsort]
    exact List.find?_cons_of_pos _ (by decide)
  have hnear : nearestPerCategory
      [sampleRow "b".toList 3 1 10, sampleRow "a".toList 10 1 10] 1 =
      [sampleRow "a".toList 10 1 10, sampleRow "b".toList 3 1 10] := by
    rw [nearestPerCategory, hcats]
    simp only [List.filterMap_cons, hchA, hchB, List.filterMap_nil]
  refine ⟨hexact, ?_, by decide, by decide⟩
  simp only [searchCore, thicknessFilter, weightFilter, hexact, List.isEmpty_nil,
    if_true, hnear, List.head?_cons]
  rfl

/-- C9 (amended): the selection is deterministic, and on the exact/no-filter
paths it is the first matching row in original table order (see the C7
theorem); but on the nearest-thickness path the `groupby` re-orders rows by
category label, so the row used is the nearest-thickness row of the
**lexicographically smallest** matched category, not of the first-in-table
category. -/
theorem C9_amended_nearest_uses_lex_least_category (ms : List Row) (t : ℚ)
    (qty : ℕ) (hne : ms ≠ [])
    (hex : ms.filter (fun r => decide (r.thickness_mm = t)) = []) :
    ∃ c0, c0 ∈ ms.map Row.pipe_category ∧
      (∀ c ∈ ms.map Row.pipe_category, catLe c0 c = true) ∧
      (searchCore ms (some t) none qty).map SearchResult.row =
        chosenFor ms t c0 := by
  have hTF : thicknessFilter ms (some t) = nearestPerCategory ms t := by
    rw [thicknessFilter, hex]
    rfl
  rcases head?_nearestPerCategory (t := t) hne with ⟨c0, hmem, hmin, hhead⟩
  refine ⟨c0, hmem, hmin, ?_⟩
  have hsome := chosenFor_isSome (t := t) hmem
  rcases Option.isSome_iff_exists.mp hsome with ⟨r, hr⟩
  simp only [searchCore, thicknessFilter, weightFilter, hex, List.isEmpty_nil,
    if_true, hTF, hhead, hr]
  rfl

/-- Witness for the amended C9 on the two-category scenario. -/
theorem C9_amended_witness :
    [sampleRow "b".toList 3 1 10, sampleRow "a".toList 10 1 10] ≠ [] ∧
    ([sampleRow "b".toList 3 1 10, sampleRow "a".toList 10 1 10].filter
        (fun r => decide (r.thickness_mm = (1 : ℚ)))) = [] ∧
    (∃ c0, c0 ∈ [sampleRow "b".toList 3 1 10,
          sampleRow "a".toList 10 1 10].map Row.pipe_category ∧
      (∀ c ∈ [sampleRow "b".toList 3 1 10,
          sampleRow "a".toList 10 1 10].map Row.pipe_category, catLe c0 c = true) ∧
      (searchCore [sampleRow "b".toList 3 1 10, sampleRow "a".toList 10 1 10]
          (some 1) none 4).map SearchResult.row =
        chosenFor [sampleRow "b".toList 3 1 10, sampleRow "a".toList 10 1 10]
          1 c0) := by
  have hexact : ([sampleRow "b".toList 3 1 10, sampleRow "a".toList 10 1 10].filter
      (fun r => decide (r.thickness_mm = (1 : ℚ)))) = [] := by
    simp only [List.filter_cons, sampleRow_th, List.filter_nil, decide_eq_true_eq]
    norm_num
  exact ⟨by simp, hexact,
    C9_amended_nearest_uses_lex_least_category _ 1 4 (by simp) hexact⟩

end PipeStock
